import Mathlib

/-!
Verification of the in-memory `KeyValueDB` engine from `kvdb-memorydb`
(together with the trait-level `write` default from `kvdb`).

The embedding is shallow: bytes are naturals, keys and values are byte
lists, a column (Rust `BTreeMap<Vec<u8>, DBValue>`) is an association
list kept sorted in strictly ascending lexicographic byte order of keys,
and the store (Rust `HashMap<u32, BTreeMap<..>>`) is a function from
column ids to optional columns.  Fallible operations return
`Except String`.
-/

namespace MemDB

/-- A byte string: keys and values of the database (`Vec<u8>` / `DBValue`). -/
abbrev Bytes : Type := List Nat

/-- Database value (`type DBValue = ElasticArray128<u8>` in `kvdb`). -/
abbrev DBValue : Type := List Nat

/-- Database operation (`enum DBOp` in `kvdb/src/lib.rs`). -/
inductive DBOp where
  | Insert : Nat → Bytes → DBValue → DBOp
  | Delete : Nat → Bytes → DBOp
deriving DecidableEq

/-- The column associated with an operation (`DBOp::col`). -/
def DBOp.col : DBOp → Nat
  | .Insert c _ _ => c
  | .Delete c _ => c

/-- The key associated with an operation (`DBOp::key`). -/
def DBOp.key : DBOp → Bytes
  | .Insert _ k _ => k
  | .Delete _ k => k

/-- Write transaction: an ordered batch of operations (`struct DBTransaction`). -/
structure DBTransaction where
  ops : List DBOp
deriving DecidableEq

/-- Strict lexicographic order on byte strings, the `Ord` instance of
`Vec<u8>` that `BTreeMap` sorts by. -/
def lexLt : Bytes → Bytes → Bool
  | [], [] => false
  | [], _ :: _ => true
  | _ :: _, [] => false
  | a :: xs, b :: ys => if a < b then true else if b < a then false else lexLt xs ys

/-- One column of the store: a `BTreeMap<Vec<u8>, DBValue>` modelled as an
association list, sorted strictly ascending by `lexLt` on keys. -/
abbrev Col : Type := List (Bytes × DBValue)

/-- Lookup in a column (`BTreeMap::get`). -/
def btGet (m : Col) (k : Bytes) : Option DBValue :=
  match m with
  | [] => none
  | (k', v) :: rest => if k' = k then some v else btGet rest k

/-- Insertion into a column at its sorted position, replacing any entry
with the same key (`BTreeMap::insert`). -/
def btInsert (k : Bytes) (v : DBValue) (m : Col) : Col :=
  match m with
  | [] => [(k, v)]
  | (k', v') :: rest =>
    if lexLt k k' then (k, v) :: (k', v') :: rest
    else if k = k' then (k, v) :: rest
    else (k', v') :: btInsert k v rest

/-- Removal of a key from a column (`BTreeMap::remove`). -/
def btRemove (k : Bytes) (m : Col) : Col :=
  match m with
  | [] => []
  | (k', v') :: rest => if k = k' then rest else (k', v') :: btRemove k rest

/-- The in-memory store: `columns: RwLock<HashMap<u32, BTreeMap<Vec<u8>, DBValue>>>`.
The lock only serializes access and has no sequential content; the hash map
is modelled by its lookup function. -/
structure InMemory where
  columns : Nat → Option Col

/-- Create an in-memory database with the given number of columns,
indexable by `0..num_cols` (`create` in `kvdb-memorydb`). -/
def create (num_cols : Nat) : InMemory :=
  ⟨fun c => if c < num_cols then some [] else none⟩

/-- Replace the contents of one (existing) column, as `HashMap::get_mut`
followed by mutation does. -/
def setCol (s : InMemory) (c : Nat) (m : Col) : InMemory :=
  ⟨fun c' => if c' = c then some m else s.columns c'⟩

/-- Apply a single operation, as one arm of the loop in
`InMemory::write_buffered`: mutate the column if it exists, silently do
nothing otherwise. -/
def applyOp (s : InMemory) (op : DBOp) : InMemory :=
  match op with
  | .Insert c k v =>
    match s.columns c with
    | some m => setCol s c (btInsert k v m)
    | none => s
  | .Delete c k =>
    match s.columns c with
    | some m => setCol s c (btRemove k m)
    | none => s

/-- Apply a transaction's operations in order (`InMemory::write_buffered`).
Total: the Rust function returns `()` and cannot fail. -/
def write_buffered (s : InMemory) (t : DBTransaction) : InMemory :=
  t.ops.foldl applyOp s

/-- Get a value by key (`InMemory::get`): error on a missing column,
otherwise the column lookup. -/
def get (s : InMemory) (c : Nat) (k : Bytes) : Except String (Option DBValue) :=
  match s.columns c with
  | none => .error ("No such column family: " ++ toString c)
  | some m => .ok (btGet m k)

/-- Get a value by partial key (`InMemory::get_by_prefix`): `none` for a
missing column, otherwise the value of the first entry (in the column's
ascending order) whose key starts with the given bytes. -/
def getByPfx (s : InMemory) (c : Nat) (p : Bytes) : Option DBValue :=
  match s.columns c with
  | none => none
  | some m => (m.find? (fun kv => p.isPrefixOf kv.1)).map (fun kv => kv.2)

/-- Flush all buffered data (`InMemory::flush`): returns the state
unchanged together with success. -/
def flush (s : InMemory) : Except String InMemory :=
  .ok s

/-- Write a transaction to the backing store: the `KeyValueDB::write`
default implementation, `write_buffered` followed by `flush`. -/
def write (s : InMemory) (t : DBTransaction) : Except String InMemory :=
  flush (write_buffered s t)

/-- Iterate over a column (`InMemory::iter`): the column's entries in
ascending key order, or the empty sequence for a missing column. -/
def iter (s : InMemory) (c : Nat) : List (Bytes × DBValue) :=
  match s.columns c with
  | some m => m
  | none => []

/-- Iterate over a column restricted to keys starting with the given
bytes (`InMemory::iter_from_prefix`). -/
def iterFromPfx (s : InMemory) (c : Nat) (p : Bytes) : List (Bytes × DBValue) :=
  match s.columns c with
  | some m => m.filter (fun kv => p.isPrefixOf kv.1)
  | none => []

/-- Attempt to replace the database (`InMemory::restore`): always an
error, and the state (the second component) is untouched. -/
def restore (s : InMemory) (_new_db : String) : Except String Unit × InMemory :=
  (.error ("Attempted to restore in-memory database"), s)

/-- The value currently mapped to a key in a column of the store, if any. -/
def mapped (s : InMemory) (c : Nat) (k : Bytes) : Option DBValue :=
  match s.columns c with
  | some m => btGet m k
  | none => none

/-- A column's entries are strictly ascending in `lexLt` on keys. -/
def colSorted (m : Col) : Prop :=
  m.Pairwise (fun a b => lexLt a.1 b.1 = true)

/-- Every present column of the store is sorted. -/
def WF (s : InMemory) : Prop :=
  ∀ c m, s.columns c = some m → colSorted m

/-- Stores reachable from `create n` by any sequence of buffered writes. -/
inductive Reachable (n : Nat) : InMemory → Prop
  | base : Reachable n (create n)
  | step {s : InMemory} (t : DBTransaction) : Reachable n s → Reachable n (write_buffered s t)

/-- The store of the `iter_from_prefix` unit test: keys `"0"`, `"a"`, `"ab"`
(bytes `[48]`, `[97]`, `[97, 98]`) inserted into column 0 of `create 1`,
each key used as its own value. -/
def exampleStore : InMemory :=
  write_buffered (create 1)
    ⟨[.Insert 0 [48] [48], .Insert 0 [97] [97], .Insert 0 [97, 98] [97, 98]]⟩

theorem lexLt_irrefl (a : Bytes) : lexLt a a = false := by
  induction a with
  | nil => rfl
  | cons x xs ih => simp [lexLt, ih]

theorem lexLt_trans {a : Bytes} : ∀ {b c : Bytes},
    lexLt a b = true → lexLt b c = true → lexLt a c = true := by
  induction a with
  | nil =>
    intro b c hab hbc
    cases b with
    | nil => exact absurd hab (by simp [lexLt])
    | cons y ys =>
      cases c with
      | nil => exact absurd hbc (by simp [lexLt])
      | cons z zs => rfl
  | cons x xs ih =>
    intro b c hab hbc
    cases b with
    | nil => exact absurd hab (by simp [lexLt])
    | cons y ys =>
      cases c with
      | nil => exact absurd hbc (by simp [lexLt])
      | cons z zs =>
        simp only [lexLt] at hab hbc ⊢
        rcases Nat.lt_trichotomy x y with h1 | h1 | h1
        · rcases Nat.lt_trichotomy y z with h2 | h2 | h2
          · simp [Nat.lt_trans h1 h2]
          · subst h2; simp [h1]
          · simp [Nat.lt_asymm h2, h2] at hbc
        · subst h1
          rcases Nat.lt_trichotomy x z with h2 | h2 | h2
          · simp [h2]
          · subst h2
            simp only [Nat.lt_irrefl, if_false] at hab hbc ⊢
            exact ih hab hbc
          · simp [Nat.lt_asymm h2, h2] at hbc
        · simp [Nat.lt_asymm h1, h1] at hab

theorem lexLt_asymm {a b : Bytes} (h : lexLt a b = true) : lexLt b a = false := by
  cases hba : lexLt b a with
  | false => rfl
  | true =>
    have h2 := lexLt_trans h hba
    rw [lexLt_irrefl] at h2
    cases h2

theorem lexLt_ne {a b : Bytes} (h : lexLt a b = true) : a ≠ b := by
  intro he
  subst he
  rw [lexLt_irrefl] at h
  cases h

theorem eq_of_not_lexLt {a : Bytes} : ∀ {b : Bytes},
    lexLt a b = false → lexLt b a = false → a = b := by
  induction a with
  | nil =>
    intro b hab _
    cases b with
    | nil => rfl
    | cons y ys => exact absurd hab (by simp [lexLt])
  | cons x xs ih =>
    intro b hab hba
    cases b with
    | nil => exact absurd hba (by simp [lexLt])
    | cons y ys =>
      simp only [lexLt] at hab hba
      rcases Nat.lt_trichotomy x y with h1 | h1 | h1
      · simp [h1] at hab
      · subst h1
        simp only [Nat.lt_irrefl, if_false] at hab hba
        rw [ih hab hba]
      · simp [Nat.lt_asymm h1, h1] at hba

theorem mem_of_btGet {m : Col} {k : Bytes} {v : DBValue}
    (h : btGet m k = some v) : (k, v) ∈ m := by
  induction m with
  | nil => simp [btGet] at h
  | cons kv rest ih =>
    obtain ⟨k0, v0⟩ := kv
    by_cases he : k0 = k
    · subst he
      simp [btGet] at h
      subst h
      exact List.mem_cons_self _ _
    · simp [btGet, he] at h
      exact List.mem_cons_of_mem _ (ih h)

theorem btGet_eq_none {m : Col} {k : Bytes}
    (h : ∀ x ∈ m, x.1 ≠ k) : btGet m k = none := by
  induction m with
  | nil => rfl
  | cons kv rest ih =>
    have hk := h kv (List.mem_cons_self _ _)
    obtain ⟨k0, v0⟩ := kv
    simp only [btGet, if_neg hk]
    exact ih fun x hx => h x (List.mem_cons_of_mem _ hx)

theorem btGet_btInsert (m : Col) (k k' : Bytes) (v : DBValue) :
    btGet (btInsert k v m) k' = if k' = k then some v else btGet m k' := by
  induction m with
  | nil =>
    by_cases h : k' = k
    · subst h; simp [btInsert, btGet]
    · simp [btInsert, btGet, h, Ne.symm h]
  | cons kv rest ih =>
    obtain ⟨k0, v0⟩ := kv
    simp only [btInsert]
    by_cases h1 : lexLt k k0 = true
    · rw [if_pos h1]
      by_cases h : k' = k
      · subst h; simp [btGet]
      · simp [btGet, Ne.symm h, h]
    · rw [if_neg h1]
      by_cases h2 : k = k0
      · subst h2
        rw [if_pos rfl]
        by_cases h : k' = k
        · subst h; simp [btGet]
        · simp [btGet, Ne.symm h, h]
      · rw [if_neg h2]
        by_cases h : k' = k
        · subst h
          simp [btGet, Ne.symm h2, ih]
        · by_cases h0 : k0 = k'
          · simp [btGet, h0, h]
          · simp [btGet, h0, ih, h]

theorem btGet_btRemove {m : Col} (hm : colSorted m) (k k' : Bytes) :
    btGet (btRemove k m) k' = if k' = k then none else btGet m k' := by
  induction m with
  | nil => simp [btRemove, btGet]
  | cons kv rest ih =>
    obtain ⟨k0, v0⟩ := kv
    rw [colSorted, List.pairwise_cons] at hm
    obtain ⟨hhead, hrest⟩ := hm
    simp only [btRemove]
    by_cases h2 : k = k0
    · subst h2
      rw [if_pos rfl]
      by_cases h : k' = k
      · subst h
        rw [if_pos rfl]
        exact btGet_eq_none fun x hx => (lexLt_ne (hhead x hx)).symm
      · simp [btGet, h, Ne.symm h]
    · rw [if_neg h2]
      by_cases h0 : k0 = k'
      · have hne : ¬ k' = k := fun he => h2 ((h0.trans he).symm)
        simp [btGet, h0, hne]
      · simp [btGet, h0, ih hrest]

theorem mem_btInsert {m : Col} {k : Bytes} {v : DBValue} {x : Bytes × DBValue}
    (h : x ∈ btInsert k v m) : x = (k, v) ∨ x ∈ m := by
  induction m with
  | nil =>
    simp only [btInsert, List.mem_singleton] at h
    exact Or.inl h
  | cons kv rest ih =>
    obtain ⟨k0, v0⟩ := kv
    simp only [btInsert] at h
    by_cases h1 : lexLt k k0 = true
    · simp only [h1, if_true] at h
      rcases List.mem_cons.mp h with h | h
      · exact Or.inl h
      · exact Or.inr h
    · simp only [h1, if_false] at h
      by_cases h2 : k = k0
      · simp only [if_pos h2] at h
        rcases List.mem_cons.mp h with h | h
        · exact Or.inl h
        · exact Or.inr (List.mem_cons_of_mem _ h)
      · simp only [if_neg h2] at h
        rcases List.mem_cons.mp h with h | h
        · exact Or.inr (by simp [h])
        · rcases ih h with h | h
          · exact Or.inl h
          · exact Or.inr (List.mem_cons_of_mem _ h)

theorem mem_btRemove {m : Col} {k : Bytes} {x : Bytes × DBValue}
    (h : x ∈ btRemove k m) : x ∈ m := by
  induction m with
  | nil => simp [btRemove] at h
  | cons kv rest ih =>
    obtain ⟨k0, v0⟩ := kv
    simp only [btRemove] at h
    by_cases h2 : k = k0
    · simp only [if_pos h2] at h
      exact List.mem_cons_of_mem _ h
    · simp only [if_neg h2] at h
      rcases List.mem_cons.mp h with h | h
      · simp [h]
      · exact List.mem_cons_of_mem _ (ih h)

theorem btInsert_sorted {m : Col} (hm : colSorted m) (k : Bytes) (v : DBValue) :
    colSorted (btInsert k v m) := by
  induction m with
  | nil => simp [btInsert, colSorted]
  | cons kv rest ih =>
    obtain ⟨k0, v0⟩ := kv
    rw [colSorted, List.pairwise_cons] at hm
    obtain ⟨hhead, hrest⟩ := hm
    simp only [btInsert]
    by_cases h1 : lexLt k k0 = true
    · rw [if_pos h1]
      rw [colSorted, List.pairwise_cons]
      refine ⟨?_, List.Pairwise.cons hhead hrest⟩
      intro x hx
      rcases List.mem_cons.mp hx with h | h
      · simp [h, h1]
      · exact lexLt_trans h1 (hhead x h)
    · rw [if_neg h1]
      by_cases h2 : k = k0
      · subst h2
        rw [if_pos rfl]
        exact List.Pairwise.cons hhead hrest
      · rw [if_neg h2]
        rw [colSorted, List.pairwise_cons]
        refine ⟨?_, ih hrest⟩
        intro x hx
        rcases mem_btInsert hx with h | h
        · subst h
          have h1' : lexLt k k0 = false := Bool.eq_false_iff.mpr h1
          cases hb : lexLt k0 k with
          | true => rfl
          | false => exact absurd (eq_of_not_lexLt h1' hb) h2
        · exact hhead x h

theorem btRemove_sorted {m : Col} (hm : colSorted m) (k : Bytes) :
    colSorted (btRemove k m) := by
  induction m with
  | nil => simp [btRemove, colSorted]
  | cons kv rest ih =>
    obtain ⟨k0, v0⟩ := kv
    rw [colSorted, List.pairwise_cons] at hm
    obtain ⟨hhead, hrest⟩ := hm
    simp only [btRemove]
    by_cases h2 : k = k0
    · simp only [if_pos h2]
      exact hrest
    · simp only [if_neg h2]
      rw [colSorted, List.pairwise_cons]
      exact ⟨fun x hx => hhead x (mem_btRemove hx), ih hrest⟩

theorem columns_setCol (s : InMemory) (c : Nat) (m : Col) (c' : Nat) :
    (setCol s c m).columns c' = if c' = c then some m else s.columns c' := rfl

theorem get_some {s : InMemory} {c : Nat} {m : Col} (h : s.columns c = some m)
    (k : Bytes) : get s c k = .ok (btGet m k) := by
  unfold get
  rw [h]

theorem get_none {s : InMemory} {c : Nat} (h : s.columns c = none) (k : Bytes) :
    get s c k = .error ("No such column family: " ++ toString c) := by
  unfold get
  rw [h]

theorem get_congr {s₁ s₂ : InMemory} {c : Nat} (h : s₁.columns c = s₂.columns c)
    (k : Bytes) : get s₁ c k = get s₂ c k := by
  unfold get
  rw [h]

theorem applyOp_isSome (s : InMemory) (op : DBOp) (c : Nat) :
    ((applyOp s op).columns c).isSome = (s.columns c).isSome := by
  cases op with
  | Insert c0 k v =>
    cases h : s.columns c0 with
    | none => simp [applyOp, h]
    | some m =>
      simp only [applyOp, h, columns_setCol]
      by_cases hc : c = c0
      · subst hc; simp [h]
      · simp [hc]
  | Delete c0 k =>
    cases h : s.columns c0 with
    | none => simp [applyOp, h]
    | some m =>
      simp only [applyOp, h, columns_setCol]
      by_cases hc : c = c0
      · subst hc; simp [h]
      · simp [hc]

theorem applyOp_none {s : InMemory} {op : DBOp} (h : s.columns op.col = none) :
    applyOp s op = s := by
  cases op with
  | Insert c k v =>
    simp only [DBOp.col] at h
    simp [applyOp, h]
  | Delete c k =>
    simp only [DBOp.col] at h
    simp [applyOp, h]

theorem wf_create (n : Nat) : WF (create n) := by
  intro c m h
  simp only [create] at h
  by_cases hc : c < n
  · rw [if_pos hc] at h
    cases h
    exact List.Pairwise.nil
  · rw [if_neg hc] at h
    cases h

theorem wf_applyOp {s : InMemory} (hs : WF s) (op : DBOp) : WF (applyOp s op) := by
  cases op with
  | Insert c k v =>
    cases h : s.columns c with
    | none => simpa [applyOp, h] using hs
    | some m =>
      intro c' m' h'
      simp only [applyOp, h, columns_setCol] at h'
      by_cases hc : c' = c
      · rw [if_pos hc] at h'
        cases h'
        exact btInsert_sorted (hs c m h) k v
      · rw [if_neg hc] at h'
        exact hs c' m' h'
  | Delete c k =>
    cases h : s.columns c with
    | none => simpa [applyOp, h] using hs
    | some m =>
      intro c' m' h'
      simp only [applyOp, h, columns_setCol] at h'
      by_cases hc : c' = c
      · rw [if_pos hc] at h'
        cases h'
        exact btRemove_sorted (hs c m h) k
      · rw [if_neg hc] at h'
        exact hs c' m' h'

theorem wf_foldl {s : InMemory} (hs : WF s) (ops : List DBOp) :
    WF (ops.foldl applyOp s) := by
  induction ops generalizing s with
  | nil => exact hs
  | cons op rest ih => exact ih (wf_applyOp hs op)

theorem foldl_isSome (ops : List DBOp) (s : InMemory) (c : Nat) :
    ((ops.foldl applyOp s).columns c).isSome = (s.columns c).isSome := by
  induction ops generalizing s with
  | nil => rfl
  | cons op rest ih => rw [List.foldl_cons, ih, applyOp_isSome]

theorem reachable_isSome {n : Nat} {s : InMemory} (h : Reachable n s) (c : Nat) :
    ((s.columns c).isSome = true) ↔ c < n := by
  induction h with
  | base =>
    simp only [create]
    by_cases hc : c < n
    · simp [hc]
    · simp [hc]
  | step t _ ih =>
    rw [write_buffered, foldl_isSome]
    exact ih

theorem reachable_wf {n : Nat} {s : InMemory} (h : Reachable n s) : WF s := by
  induction h with
  | base => exact wf_create n
  | step t _ ih => exact wf_foldl ih t.ops

theorem reachable_columns_some {n : Nat} {s : InMemory} (h : Reachable n s)
    {c : Nat} (hc : c < n) : ∃ m, s.columns c = some m ∧ colSorted m := by
  have h1 := (reachable_isSome h c).mpr hc
  cases hcol : s.columns c with
  | none => rw [hcol] at h1; cases h1
  | some m => exact ⟨m, rfl, reachable_wf h c m hcol⟩

theorem reachable_columns_none {n : Nat} {s : InMemory} (h : Reachable n s)
    {c : Nat} (hc : ¬ c < n) : s.columns c = none := by
  have h1 := (reachable_isSome h c).not.mpr hc
  cases hcol : s.columns c with
  | none => rfl
  | some m => rw [hcol] at h1; exact absurd rfl h1

theorem get_applyOp_insert {s : InMemory} {c : Nat} {m : Col}
    (hm : s.columns c = some m) (k : Bytes) (v : DBValue) (c' : Nat) (k' : Bytes) :
    get (applyOp s (.Insert c k v)) c' k' =
      if c' = c ∧ k' = k then .ok (some v) else get s c' k' := by
  have hIcol : ∀ c'', (applyOp s (.Insert c k v)).columns c'' =
      if c'' = c then some (btInsert k v m) else s.columns c'' := by
    intro c''
    simp [applyOp, hm, columns_setCol]
  by_cases hc : c' = c
  · subst hc
    rw [get_some (by rw [hIcol, if_pos rfl]), btGet_btInsert]
    by_cases hk : k' = k
    · rw [if_pos hk, if_pos ⟨rfl, hk⟩]
    · rw [if_neg hk, if_neg (fun hand => hk hand.2), get_some hm]
  · rw [if_neg (fun hand => hc hand.1)]
    exact get_congr (by rw [hIcol, if_neg hc]) k'

theorem get_applyOp_delete {s : InMemory} {c : Nat} {m : Col}
    (hm : s.columns c = some m) (hsort : colSorted m) (k : Bytes) (c' : Nat) (k' : Bytes) :
    get (applyOp s (.Delete c k)) c' k' =
      if c' = c ∧ k' = k then .ok none else get s c' k' := by
  have hDcol : ∀ c'', (applyOp s (.Delete c k)).columns c'' =
      if c'' = c then some (btRemove k m) else s.columns c'' := by
    intro c''
    simp [applyOp, hm, columns_setCol]
  by_cases hc : c' = c
  · subst hc
    rw [get_some (by rw [hDcol, if_pos rfl]), btGet_btRemove hsort]
    by_cases hk : k' = k
    · rw [if_pos hk, if_pos ⟨rfl, hk⟩]
    · rw [if_neg hk, if_neg (fun hand => hk hand.2), get_some hm]
  · rw [if_neg (fun hand => hc hand.1)]
    exact get_congr (by rw [hDcol, if_neg hc]) k'

theorem mapped_some {s : InMemory} {c : Nat} {m : Col} (h : s.columns c = some m)
    (k : Bytes) : mapped s c k = btGet m k := by
  unfold mapped
  rw [h]

theorem mapped_none {s : InMemory} {c : Nat} (h : s.columns c = none) (k : Bytes) :
    mapped s c k = none := by
  unfold mapped
  rw [h]

theorem btGet_of_mem : ∀ {m : Col}, colSorted m → ∀ {k : Bytes} {v : DBValue},
    (k, v) ∈ m → btGet m k = some v := by
  intro m
  induction m with
  | nil =>
    intro _ k v hmem
    cases hmem
  | cons kv rest ih =>
    intro hm k v hmem
    obtain ⟨k0, v0⟩ := kv
    rw [colSorted, List.pairwise_cons] at hm
    obtain ⟨hhead, hrest⟩ := hm
    rcases List.mem_cons.mp hmem with h | h
    · injection h with h1 h2
      subst h1
      subst h2
      simp [btGet]
    · have hne : k0 ≠ k := lexLt_ne (hhead (k, v) h)
      simp only [btGet, if_neg hne]
      exact ih hrest h

theorem btGet_eq_some_iff {m : Col} (hm : colSorted m) (k : Bytes) (v : DBValue) :
    btGet m k = some v ↔ (k, v) ∈ m :=
  ⟨mem_of_btGet, btGet_of_mem hm⟩

theorem find?_eq_head?_filter (l : List (Bytes × DBValue)) (p : Bytes × DBValue → Bool) :
    l.find? p = (l.filter p).head? := by
  induction l with
  | nil => rfl
  | cons a l ih =>
    by_cases h : p a = true
    · rw [List.find?_cons_of_pos _ h, List.filter_cons_of_pos h, List.head?_cons]
    · have h' : p a = false := Bool.eq_false_iff.mpr h
      rw [List.find?_cons_of_neg _ h, List.filter_cons_of_neg (by simp [h']), ih]

theorem find?_least : ∀ {m : Col}, colSorted m → ∀ (p k : Bytes) (v : DBValue),
    m.find? (fun kv => p.isPrefixOf kv.1) = some (k, v) ↔
      (btGet m k = some v ∧ p.isPrefixOf k = true ∧
        ∀ k' v', btGet m k' = some v' → p.isPrefixOf k' = true →
          k = k' ∨ lexLt k k' = true) := by
  intro m
  induction m with
  | nil =>
    intro _ p k v
    simp [btGet]
  | cons kv rest ih =>
    intro hm p k v
    obtain ⟨k0, v0⟩ := kv
    rw [colSorted, List.pairwise_cons] at hm
    obtain ⟨hhead, hrest⟩ := hm
    by_cases hp0 : p.isPrefixOf k0 = true
    · simp only [List.find?_cons, hp0]
      constructor
      · intro h
        have h' := Option.some.inj h
        injection h' with h1 h2
        subst h1
        subst h2
        refine ⟨by simp [btGet], hp0, ?_⟩
        intro k' v' hg hp'
        by_cases hkk : k0 = k'
        · exact Or.inl hkk
        · simp only [btGet, if_neg hkk] at hg
          exact Or.inr (hhead (k', v') (mem_of_btGet hg))
      · rintro ⟨hg, hp, hleast⟩
        have h0 : btGet ((k0, v0) :: rest) k0 = some v0 := by simp [btGet]
        rcases hleast k0 v0 h0 hp0 with h | h
        · subst h
          simp only [btGet, if_pos rfl] at hg
          have := Option.some.inj hg
          subst this
          rfl
        · exfalso
          have hne : k0 ≠ k := fun he => (lexLt_ne h) he.symm
          simp only [btGet, if_neg hne] at hg
          have hmem := mem_of_btGet hg
          have := hhead (k, v) hmem
          rw [lexLt_asymm this] at h
          cases h
    · have hp0f : p.isPrefixOf k0 = false := Bool.eq_false_iff.mpr hp0
      simp only [List.find?_cons, hp0f]
      rw [ih hrest p k v]
      have hskip : ∀ (k' : Bytes), p.isPrefixOf k' = true → k0 ≠ k' := by
        intro k' hp' he
        exact hp0 (he ▸ hp')
      constructor
      · rintro ⟨hg, hp, hleast⟩
        refine ⟨?_, hp, ?_⟩
        · simp only [btGet, if_neg (hskip k hp)]
          exact hg
        · intro k' v' hg' hp'
          simp only [btGet, if_neg (hskip k' hp')] at hg'
          exact hleast k' v' hg' hp'
      · rintro ⟨hg, hp, hleast⟩
        simp only [btGet, if_neg (hskip k hp)] at hg
        refine ⟨hg, hp, ?_⟩
        intro k' v' hg' hp'
        refine hleast k' v' ?_ hp'
        simp only [btGet, if_neg (hskip k' hp')]
        exact hg'

theorem foldl_skip {n : Nat} {s : InMemory}
    (hcols : ∀ c, ((s.columns c).isSome = true) ↔ c < n) {ops : List DBOp}
    (h : ∀ op ∈ ops, ¬ op.col < n) : ops.foldl applyOp s = s := by
  induction ops with
  | nil => rfl
  | cons op rest ih =>
    have hnone : s.columns op.col = none := by
      cases hcol : s.columns op.col with
      | none => rfl
      | some m =>
        exact absurd ((hcols op.col).mp (by rw [hcol]; rfl)) (h op (List.mem_cons_self _ _))
    rw [List.foldl_cons, applyOp_none hnone]
    exact ih fun op' hop' => h op' (List.mem_cons_of_mem _ hop')

theorem foldl_filter_declared {n : Nat} : ∀ (ops : List DBOp) {s : InMemory},
    (∀ c, ((s.columns c).isSome = true) ↔ c < n) →
    ops.foldl applyOp s = (ops.filter (fun op => decide (op.col < n))).foldl applyOp s := by
  intro ops
  induction ops with
  | nil => intro s _; rfl
  | cons op rest ih =>
    intro s hcols
    by_cases hc : op.col < n
    · rw [List.filter_cons_of_pos (by simpa using hc), List.foldl_cons, List.foldl_cons]
      exact ih fun c => by rw [applyOp_isSome]; exact hcols c
    · have hnone : s.columns op.col = none := by
        cases hcol : s.columns op.col with
        | none => rfl
        | some m => exact absurd ((hcols op.col).mp (by rw [hcol]; rfl)) hc
      rw [List.filter_cons_of_neg (by simpa using hc), List.foldl_cons, applyOp_none hnone]
      exact ih hcols

/-- C1: for a store created with `create n` (and evolved by buffered writes),
`write_buffered` applies the transaction's operations in sequence order; an
`Insert` on a declared column sets (overwrites) the key's mapping, a `Delete`
on a declared column removes the key, and any operation on an undeclared
column is silently skipped, leaving the store untouched; `write_buffered` is
total and never returns an error. -/
theorem c1_write_buffered (n : Nat) (s : InMemory) (hs : Reachable n s)
    (op : DBOp) (ops : List DBOp) (c : Nat) (k : Bytes) (v : DBValue)
    (c' : Nat) (k' : Bytes) :
    (write_buffered s ⟨op :: ops⟩ = write_buffered (applyOp s op) ⟨ops⟩) ∧
    (c < n → get (applyOp s (.Insert c k v)) c' k' =
      if c' = c ∧ k' = k then .ok (some v) else get s c' k') ∧
    (c < n → get (applyOp s (.Delete c k)) c' k' =
      if c' = c ∧ k' = k then .ok none else get s c' k') ∧
    (¬ op.col < n → applyOp s op = s) := by
  refine ⟨rfl, ?_, ?_, ?_⟩
  · intro hc
    obtain ⟨m, hm, _⟩ := reachable_columns_some hs hc
    exact get_applyOp_insert hm k v c' k'
  · intro hc
    obtain ⟨m, hm, hsort⟩ := reachable_columns_some hs hc
    exact get_applyOp_delete hm hsort k c' k'
  · intro hc
    exact applyOp_none (reachable_columns_none hs hc)

/-- Witness for C1 at a concrete instance: inserting key `[1]` with value
`[2]` into column 0 of `create 1` makes `get` return `[2]`. -/
theorem c1_write_buffered_witness :
    get (applyOp (create 1) (.Insert 0 [1] [2])) 0 [1] = .ok (some [2]) := by
  have h := (c1_write_buffered 1 (create 1) Reachable.base (DBOp.Delete 0 [])
    [] 0 [1] [2] 0 [1]).2.1 (by decide)
  simpa using h

/-- C2: for a store created with `create n` (and evolved by buffered writes),
`get c k` fails with a "no such column" error exactly when `c` is outside
`0..n`; on a declared column it succeeds with the value currently mapped to
`k` (or `none` when absent), and immediately after `create n` every declared
column is present and empty. -/
theorem c2_get (n : Nat) (s : InMemory) (hs : Reachable n s) (c : Nat) (k : Bytes) :
    ((∃ e, get s c k = .error e) ↔ ¬ c < n) ∧
    (c < n → get s c k = .ok (mapped s c k)) ∧
    (c < n → get (create n) c k = .ok none) := by
  refine ⟨⟨?_, ?_⟩, ?_, ?_⟩
  · rintro ⟨e, he⟩ hc
    obtain ⟨m, hm, _⟩ := reachable_columns_some hs hc
    rw [get_some hm] at he
    cases he
  · intro hc
    exact ⟨_, get_none (reachable_columns_none hs hc) k⟩
  · intro hc
    obtain ⟨m, hm, _⟩ := reachable_columns_some hs hc
    rw [get_some hm, mapped_some hm]
  · intro hc
    have hm : (create n).columns c = some [] := by simp [create, hc]
    rw [get_some hm]
    rfl

/-- Witness for C2 at a concrete instance: after `create 1`, column 0 is
present and empty. -/
theorem c2_get_witness : get (create 1) 0 [0] = .ok none :=
  (c2_get 1 (create 1) Reachable.base 0 [0]).2.2 (by decide)

/-- C3: after writing the single-operation transaction `Insert c k v` on a
declared column, `get c k` succeeds and returns `v`. -/
theorem c3_insert_get (n : Nat) (s : InMemory) (hs : Reachable n s) (c : Nat)
    (hc : c < n) (k : Bytes) (v : DBValue) :
    get (write_buffered s ⟨[.Insert c k v]⟩) c k = .ok (some v) := by
  obtain ⟨m, hm, _⟩ := reachable_columns_some hs hc
  have h : write_buffered s ⟨[DBOp.Insert c k v]⟩ = applyOp s (DBOp.Insert c k v) := rfl
  rw [h, get_applyOp_insert hm k v c k, if_pos ⟨rfl, rfl⟩]

/-- Witness for C3 at a concrete instance. -/
theorem c3_insert_get_witness :
    get (write_buffered (create 1) ⟨[.Insert 0 [3] [4]]⟩) 0 [3] = .ok (some [4]) :=
  c3_insert_get 1 (create 1) Reachable.base 0 (by decide) [3] [4]

/-- C4: `iter c` yields exactly the pairs currently stored in column `c`
(membership coincides with the current mapping), as a finite list in strictly
ascending lexicographic key order, and yields the empty sequence (no error)
for a column not declared at construction. -/
theorem c4_iter (n : Nat) (s : InMemory) (hs : Reachable n s) (c : Nat) :
    (List.Pairwise (fun a b => lexLt a.1 b.1 = true) (iter s c)) ∧
    (∀ k v, (k, v) ∈ iter s c ↔ mapped s c k = some v) ∧
    (¬ c < n → iter s c = []) := by
  refine ⟨?_, ?_, ?_⟩
  · cases hcol : s.columns c with
    | none =>
      unfold iter
      rw [hcol]
      exact List.Pairwise.nil
    | some m =>
      unfold iter
      rw [hcol]
      exact reachable_wf hs c m hcol
  · intro k v
    cases hcol : s.columns c with
    | none =>
      unfold iter
      rw [hcol, mapped_none hcol]
      simp
    | some m =>
      unfold iter
      rw [hcol, mapped_some hcol]
      exact (btGet_eq_some_iff (reachable_wf hs c m hcol) k v).symm
  · intro hc
    unfold iter
    rw [reachable_columns_none hs hc]

/-- Witness for C4 at a concrete instance: iteration over column 0 of the
example store is in strictly ascending key order. -/
theorem c4_iter_witness :
    List.Pairwise (fun a b => lexLt a.1 b.1 = true) (iter exampleStore 0) :=
  (c4_iter 1 exampleStore (Reachable.step _ Reachable.base) 0).1

/-- C5: `iter_from_prefix c p` is exactly the subsequence of `iter c` whose
keys start with `p` (hence in the same ascending order), it is empty for an
undeclared column, and on the example store with keys `"0"`, `"a"`, `"ab"`
in column 0 it yields exactly the sequences the claim lists. -/
theorem c5_iter_from (n : Nat) (s : InMemory) (hs : Reachable n s) (c : Nat)
    (p : Bytes) :
    (iterFromPfx s c p = (iter s c).filter (fun kv => p.isPrefixOf kv.1)) ∧
    (¬ c < n → iterFromPfx s c p = []) ∧
    (iterFromPfx exampleStore 0 [] =
      [([48], [48]), ([97], [97]), ([97, 98], [97, 98])]) ∧
    (iterFromPfx exampleStore 0 [48] = [([48], [48])]) ∧
    (iterFromPfx exampleStore 0 [97] = [([97], [97]), ([97, 98], [97, 98])]) ∧
    (iterFromPfx exampleStore 0 [97, 98] = [([97, 98], [97, 98])]) ∧
    (iterFromPfx exampleStore 0 [97, 98, 99] = []) := by
  refine ⟨?_, ?_, by decide, by decide, by decide, by decide, by decide⟩
  · cases hcol : s.columns c with
    | none =>
      unfold iterFromPfx iter
      rw [hcol]
      rfl
    | some m =>
      unfold iterFromPfx iter
      rw [hcol]
  · intro hc
    unfold iterFromPfx
    rw [reachable_columns_none hs hc]

/-- Witness for C5 at a concrete instance: on the example store,
`iter_from_prefix` with the empty prefix is the filter of `iter`. -/
theorem c5_iter_from_witness :
    iterFromPfx exampleStore 0 [] =
      (iter exampleStore 0).filter (fun kv => List.isPrefixOf [] kv.1) :=
  (c5_iter_from 1 exampleStore (Reachable.step _ Reachable.base) 0 []).1

/-- C6: `get_by_prefix c p` returns `none` (no error) for an undeclared
column; on a declared column it returns `some v` exactly when `v` is the
value of the lexicographically least key of column `c` starting with `p`,
and `none` exactly when no key of column `c` starts with `p`. -/
theorem c6_get_by_pfx (n : Nat) (s : InMemory) (hs : Reachable n s) (c : Nat)
    (p : Bytes) :
    (¬ c < n → getByPfx s c p = none) ∧
    (c < n → ∀ v, getByPfx s c p = some v ↔
      ∃ k, mapped s c k = some v ∧ p.isPrefixOf k = true ∧
        ∀ k' v', mapped s c k' = some v' → p.isPrefixOf k' = true →
          k = k' ∨ lexLt k k' = true) ∧
    (c < n → (getByPfx s c p = none ↔
      ∀ k v, mapped s c k = some v → p.isPrefixOf k = false)) := by
  refine ⟨?_, ?_, ?_⟩
  · intro hc
    unfold getByPfx
    rw [reachable_columns_none hs hc]
  · intro hc v
    obtain ⟨m, hm, hsort⟩ := reachable_columns_some hs hc
    unfold getByPfx
    rw [hm]
    constructor
    · intro h
      obtain ⟨kv, hfind, hv⟩ := Option.map_eq_some'.mp h
      obtain ⟨k0, v0⟩ := kv
      simp only at hv
      subst hv
      obtain ⟨hg, hp, hleast⟩ := (find?_least hsort p k0 v0).mp hfind
      refine ⟨k0, by rw [mapped_some hm]; exact hg, hp, ?_⟩
      intro k' v' hg' hp'
      rw [mapped_some hm] at hg'
      exact hleast k' v' hg' hp'
    · rintro ⟨k, hk, hp, hleast⟩
      rw [mapped_some hm] at hk
      have hfind : m.find? (fun kv => p.isPrefixOf kv.1) = some (k, v) := by
        rw [find?_least hsort p k v]
        refine ⟨hk, hp, ?_⟩
        intro k' v' hg' hp'
        rw [← mapped_some hm] at hg'
        exact hleast k' v' hg' hp'
      show Option.map (fun kv => kv.2) (m.find? (fun kv => p.isPrefixOf kv.1)) = some v
      rw [hfind]
      rfl
  · intro hc
    obtain ⟨m, hm, hsort⟩ := reachable_columns_some hs hc
    unfold getByPfx
    rw [hm]
    show Option.map (fun kv => kv.2) (m.find? (fun kv => p.isPrefixOf kv.1)) = none ↔ _
    constructor
    · intro h k v hbt
      rw [mapped_some hm] at hbt
      have hfind := Option.map_eq_none'.mp h
      have := List.find?_eq_none.mp hfind (k, v) (mem_of_btGet hbt)
      simpa using Bool.eq_false_iff.mpr this
    · intro h
      have hfind : m.find? (fun kv => p.isPrefixOf kv.1) = none := by
        rw [List.find?_eq_none]
        intro x hx
        obtain ⟨kx, vx⟩ := x
        have := h kx vx (by rw [mapped_some hm]; exact btGet_of_mem hsort hx)
        simp [this]
      rw [hfind]
      rfl

/-- Witness for C6 at a concrete instance: on `create 1`, the undeclared
column 5 gives `none` rather than an error. -/
theorem c6_get_by_pfx_witness : getByPfx (create 1) 5 [] = none :=
  (c6_get_by_pfx 1 (create 1) Reachable.base 5 []).1 (by decide)

/-- C7: a transaction whose operations all name undeclared columns does not
fail and leaves the whole store unchanged; more generally any buffered write
equals the buffered write of only its declared-column operations, so
operations on undeclared columns alter no column's state. -/
theorem c7_frame (n : Nat) (s : InMemory) (hs : Reachable n s)
    (t : DBTransaction) :
    ((∀ op ∈ t.ops, ¬ op.col < n) → write_buffered s t = s) ∧
    (write_buffered s t =
      write_buffered s ⟨t.ops.filter (fun op => decide (op.col < n))⟩) := by
  have hcols := reachable_isSome hs
  exact ⟨fun h => foldl_skip hcols h, foldl_filter_declared t.ops hcols⟩

/-- Witness for C7 at a concrete instance: an insert into undeclared column 5
leaves `create 1` unchanged. -/
theorem c7_frame_witness :
    write_buffered (create 1) ⟨[.Insert 5 [0] [1]]⟩ = create 1 :=
  (c7_frame 1 (create 1) Reachable.base ⟨[.Insert 5 [0] [1]]⟩).1 (by decide)

/-- C8: `write` is `write_buffered` followed by `flush`, failing exactly when
`flush` fails; the in-memory `flush` always succeeds and leaves the state
unchanged, so `write` never fails and produces exactly the `write_buffered`
state. -/
theorem c8_write (s : InMemory) (t : DBTransaction) :
    write s t = flush (write_buffered s t) ∧
    write s t = .ok (write_buffered s t) ∧
    flush s = .ok s :=
  ⟨rfl, rfl, rfl⟩

/-- C9: `restore` always fails with the "unsupported" error and the store's
state is unchanged by the call. -/
theorem c9_restore (s : InMemory) (loc : String) :
    (restore s loc).1 = .error ("Attempted to restore in-memory database") ∧
    (restore s loc).2 = s :=
  ⟨rfl, rfl⟩

/-- C10: `get_by_prefix` agrees with `iter_from_prefix`: it returns the value
of the first yielded pair, is `none` exactly when the iteration is empty, and
`iter_from_prefix` with the empty prefix coincides with `iter`. -/
theorem c10_agree (s : InMemory) (c : Nat) (p : Bytes) :
    (getByPfx s c p = ((iterFromPfx s c p).head?).map (fun kv => kv.2)) ∧
    (getByPfx s c p = none ↔ iterFromPfx s c p = []) ∧
    (iterFromPfx s c [] = iter s c) := by
  have h1 : getByPfx s c p = ((iterFromPfx s c p).head?).map (fun kv => kv.2) := by
    cases hcol : s.columns c with
    | none =>
      unfold getByPfx iterFromPfx
      rw [hcol]
      rfl
    | some m =>
      unfold getByPfx iterFromPfx
      rw [hcol]
      show Option.map (fun kv => kv.2) (m.find? (fun kv => p.isPrefixOf kv.1)) =
        Option.map (fun kv => kv.2) ((m.filter (fun kv => p.isPrefixOf kv.1)).head?)
      rw [find?_eq_head?_filter]
  refine ⟨h1, ?_, ?_⟩
  · rw [h1]
    constructor
    · intro h
      exact List.head?_eq_none_iff.mp (Option.map_eq_none'.mp h)
    · intro h
      rw [h]
      rfl
  · cases hcol : s.columns c with
    | none =>
      unfold iterFromPfx iter
      rw [hcol]
    | some m =>
      unfold iterFromPfx iter
      rw [hcol]
      exact List.filter_eq_self.mpr fun a _ => by simp [List.isPrefixOf]

end MemDB
